import Mathlib

/-!
Shallow embedding of the Filane dual-pane file-manager engine
(`src/pane.rs`, `src/filesystem.rs`) and proofs about the behaviour of
its pane state machine, directory lister, search walker and diff
algorithm.

Modelling conventions:
* a filesystem path is its list of components from the root, so the
  filesystem root is `[]` and `Path::parent` is `List.dropLast` (absent
  for `[]`);
* `SystemTime` is a `Nat` (seconds since the epoch, `UNIX_EPOCH` = 0);
* the ambient filesystem is an oracle `Fs` supplying the results of
  `fs::read_dir` (plus metadata), `find_git_repo` and `get_git_status`;
  `none` models the `Err` case of the corresponding `Result`;
* fallible Rust methods that mutate `&mut self` are embedded as
  `Pane → Pane × Bool`: the returned pane is the receiver's state when
  the method returns, the flag is `false` exactly when the method
  returned `Err` via the `?` operator;
* `Vec::sort_by` is a stable sort; it is embedded as
  `List.insertionSort` (also stable) over the relation
  "comparator does not answer `Greater`".
-/

namespace Filane

/-- Git status tags of `filesystem.rs` (`enum GitStatus`). -/
inductive GitStatus where
  | unmodified
  | modified
  | added
  | deleted
  | renamed
  | copied
  | untracked
  | ignored
deriving DecidableEq, Repr

/-- Path = list of components from the filesystem root. -/
abbrev FsPath := List String

/-- An entry of a directory listing (`struct FileItem` of `filesystem.rs`). -/
structure FileItem where
  name : String
  path : FsPath
  isDir : Bool
  size : Nat
  modified : Nat
  gitStatus : Option GitStatus
deriving DecidableEq, Repr

/-- The synthetic ".." sentinel (`FileItem::parent_dir`):
name "..", path `PathBuf::from("..")`, a directory of size 0,
modified at `UNIX_EPOCH`, no git status. -/
def FileItem.parentDir : FileItem :=
  { name := "..", path := [".."], isDir := true, size := 0,
    modified := 0, gitStatus := none }

/-- Sort key of a pane (`enum SortBy` of `pane.rs`). -/
inductive SortBy where
  | name
  | size
  | date
deriving DecidableEq, Repr

/-- Sort direction of a pane (`enum SortOrder` of `pane.rs`). -/
inductive SortOrder where
  | ascending
  | descending
deriving DecidableEq, Repr

/-- Rust's `Ord` on `u64` (`a.size.cmp(&b.size)`), as an `Ordering`. -/
def cmpNat (a b : Nat) : Ordering :=
  if a < b then .lt else if b < a then .gt else .eq

/-- Rust's `Ord` on `str`/`String` (lexicographic), as an `Ordering`. -/
def cmpStr (a b : String) : Ordering :=
  if a < b then .lt else if b < a then .gt else .eq

/-- Rust's `to_lowercase`, modelled as per-character lowercasing over
the string's characters (`Char.toLower` maps ASCII letters; the full
Unicode case mapping of Rust is outside the model). Written at the
`data` level so that it evaluates in the kernel. -/
def strToLower (s : String) : String :=
  ⟨s.data.map Char.toLower⟩

/-- The comparator body shared by `Pane::apply_sort` and
`read_directory`: for `Name`, directories first, then lowercased-name
order; for `Size` and `Date`, plain numeric comparison. -/
def itemCmp (sb : SortBy) (a b : FileItem) : Ordering :=
  match sb with
  | .name =>
    match a.isDir, b.isDir with
    | true, false => .lt
    | false, true => .gt
    | _, _ => cmpStr (strToLower a.name) (strToLower b.name)
  | .size => cmpNat a.size b.size
  | .date => cmpNat a.modified b.modified

/-- The directed comparator of `Pane::apply_sort`: `Descending`
reverses the whole ordering (`ordering.reverse()` in the source). -/
def directedCmp (sb : SortBy) (so : SortOrder) (a b : FileItem) : Ordering :=
  match so with
  | .ascending => itemCmp sb a b
  | .descending => (itemCmp sb a b).swap

/-- The relation under which `sort_by` sorts: `a` may precede `b` when
the comparator does not answer `Greater`. -/
def sortRel (sb : SortBy) (so : SortOrder) (a b : FileItem) : Prop :=
  directedCmp sb so a b ≠ .gt

instance (sb : SortBy) (so : SortOrder) : DecidableRel (sortRel sb so) :=
  fun a b => by unfold sortRel; infer_instance

/-- One pane of the browser (`struct Pane` of `pane.rs`). -/
structure Pane where
  currentPath : FsPath
  items : List FileItem
  selectedIndex : Nat
  scrollOffset : Nat
  sortBy : SortBy
  sortOrder : SortOrder
  filterText : String
  history : List FsPath
  historyIndex : Nat
  gitRepoPath : Option FsPath
  selectedItems : List Nat
  selectionAnchor : Option Nat
deriving DecidableEq, Repr

/-- The filesystem oracle: results of the OS calls the engine makes.
`listing p` is the outcome of `fs::read_dir(p)` together with the
per-child metadata reads (children whose metadata read failed are
already omitted, as `read_directory` drops them); `none` is the `Err`
case. `gitRepo` is `find_git_repo`, `gitStatuses` the outcome of
`get_git_status` for a repository root. -/
structure Fs where
  listing : FsPath → Option (List FileItem)
  gitRepo : FsPath → Option FsPath
  gitStatuses : FsPath → Option (FsPath → Option GitStatus)

/-- Embedding of `read_directory` (`filesystem.rs`): a ".." sentinel
followed by the children sorted directories-first then by lowercased
name (the comparator is `itemCmp .name`, never reversed). -/
def readDirectory (fs : Fs) (p : FsPath) : Option (List FileItem) :=
  match fs.listing p with
  | none => none
  | some children =>
    some (FileItem.parentDir :: children.insertionSort (sortRel .name .ascending))

/-- Embedding of `apply_git_status` (`filesystem.rs`) once the status
map has been obtained: every item except the ".." sentinel gets
`Some status` (defaulting to `Unmodified`). -/
def applyGitStatusMap (m : FsPath → Option GitStatus) (items : List FileItem) :
    List FileItem :=
  items.map fun it =>
    if it.name = ".." then it
    else { it with gitStatus := some ((m it.path).getD .unmodified) }

/-- Remove the first item named ".." from a list, returning it and the
remainder; this is the `position` / `remove` pair of `Pane::apply_sort`. -/
def extractParent : List FileItem → Option (FileItem × List FileItem)
  | [] => none
  | it :: rest =>
    if it.name = ".." then some (it, rest)
    else
      match extractParent rest with
      | none => none
      | some (par, rest2) => some (par, it :: rest2)

/-- Embedding of `Pane::apply_sort` on the item list: if no ".." item
is present, nothing happens at all; otherwise the sentinel is removed,
the rest is (stably) sorted by the directed comparator, and the
sentinel is re-inserted at the front. -/
def applySortItems (sb : SortBy) (so : SortOrder) (items : List FileItem) :
    List FileItem :=
  match extractParent items with
  | none => items
  | some (par, rest) => par :: rest.insertionSort (sortRel sb so)

/-- The git-decoration step of `Pane::refresh`: when a repository is
tracked, `apply_git_status` runs (and is itself a no-op when
`get_git_status` fails). -/
def gitApply (fs : Fs) (p : Pane) (items : List FileItem) : List FileItem :=
  match p.gitRepoPath with
  | some repoPath =>
    match fs.gitStatuses repoPath with
    | some statusMap => applyGitStatusMap statusMap items
    | none => items
  | none => items

/-- Embedding of `Pane::refresh`: re-list `current_path`; on failure the
`?` operator returns before any field is assigned, so the pane is
returned unchanged with the failure flag. On success the items are
replaced (with git status applied when a repository is tracked), the
active sort is re-applied, and the cursor is clamped to
`items.len() - 1` when out of range (and the list is non-empty). -/
def refresh (fs : Fs) (p : Pane) : Pane × Bool :=
  match readDirectory fs p.currentPath with
  | none => (p, false)
  | some newItems =>
    let items2 := applySortItems p.sortBy p.sortOrder (gitApply fs p newItems)
    let idx :=
      if p.selectedIndex ≥ items2.length ∧ items2 ≠ [] then items2.length - 1
      else p.selectedIndex
    ({ p with items := items2, selectedIndex := idx }, true)

/-- Embedding of `Pane::toggle_sort`. -/
def toggleSort (p : Pane) (sb : SortBy) : Pane :=
  let p1 :=
    if p.sortBy = sb then
      { p with sortOrder := match p.sortOrder with
          | .ascending => .descending
          | .descending => .ascending }
    else
      { p with sortBy := sb, sortOrder := .ascending }
  { p1 with items := applySortItems p1.sortBy p1.sortOrder p1.items }

/-- Embedding of `Pane::move_up`: decrement the cursor when positive;
no other field is touched. -/
def moveUp (p : Pane) : Pane :=
  if 0 < p.selectedIndex then { p with selectedIndex := p.selectedIndex - 1 } else p

/-- Embedding of `Pane::move_down`: increment the cursor while below
`items.len().saturating_sub(1)`; no other field is touched. -/
def moveDown (p : Pane) : Pane :=
  if p.selectedIndex < p.items.length - 1 then
    { p with selectedIndex := p.selectedIndex + 1 }
  else p

/-- Embedding of `Pane::update_selection_range`: with an anchor set,
the selected indices become the inclusive span between anchor and
cursor. -/
def updateSelectionRange (p : Pane) : Pane :=
  match p.selectionAnchor with
  | some anchor =>
    let start := min anchor p.selectedIndex
    let stop := max anchor p.selectedIndex
    { p with selectedItems := List.range' start (stop - start + 1) }
  | none => p

/-- Embedding of `Pane::move_up_with_selection`. -/
def moveUpWithSelection (p : Pane) : Pane :=
  let p1 :=
    if p.selectionAnchor = none then { p with selectionAnchor := some p.selectedIndex }
    else p
  if 0 < p1.selectedIndex then
    updateSelectionRange { p1 with selectedIndex := p1.selectedIndex - 1 }
  else p1

/-- Embedding of `Pane::move_down_with_selection`. -/
def moveDownWithSelection (p : Pane) : Pane :=
  let p1 :=
    if p.selectionAnchor = none then { p with selectionAnchor := some p.selectedIndex }
    else p
  if p1.selectedIndex < p1.items.length - 1 then
    updateSelectionRange { p1 with selectedIndex := p1.selectedIndex + 1 }
  else p1

/-- Embedding of `Pane::clear_selection`. -/
def clearSelection (p : Pane) : Pane :=
  { p with selectedItems := [], selectionAnchor := none }

/-- Embedding of `Pane::get_selected_items`: with an empty selection,
the single item under the cursor (empty when the cursor is out of
range); otherwise the stored indices resolved through `items.get`,
silently dropping any that are out of range. -/
def getSelectedItems (p : Pane) : List FileItem :=
  if p.selectedItems = [] then
    match p.items[p.selectedIndex]? with
    | some it => [it]
    | none => []
  else
    p.selectedItems.filterMap fun idx => p.items[idx]?

/-- Embedding of `Pane::navigate_to`. `current_path` (and the tracked
git repository) are assigned before the fallible `refresh`, so a
failing refresh leaves them pointing at the attempted target; the
history edits all happen after the `?`. The `usize` subtraction
`history.len() - 1` is modelled by truncated `Nat` subtraction, which
agrees with it whenever the history is non-empty (true in every state
reachable from `Pane::new`). -/
def navigateTo (fs : Fs) (p : Pane) (path : FsPath) : Pane × Bool :=
  let p0 := { p with currentPath := path, gitRepoPath := fs.gitRepo path }
  match refresh fs p0 with
  | (p1, false) => (p1, false)
  | (p1, true) =>
    let p2 := { p1 with selectedIndex := 0, scrollOffset := 0 }
    let h1 :=
      if p2.historyIndex < p2.history.length - 1 then
        p2.history.take (p2.historyIndex + 1)
      else p2.history
    if h1.getLast? = some path then
      ({ p2 with history := h1 }, true)
    else
      let h2 := h1 ++ [path]
      if h2.length > 50 then
        ({ p2 with history := h2.tail, historyIndex := h2.tail.length - 1 }, true)
      else
        ({ p2 with history := h2, historyIndex := h2.length - 1 }, true)

/-- Embedding of `Pane::new`: the initial state has the starting path
as its one-element history, `Name`/`Ascending` sort and an empty
selection; the constructor propagates a failing initial `refresh`
(so no pane value exists in that case). -/
def paneNew (fs : Fs) (path : FsPath) : Option Pane :=
  let p : Pane :=
    { currentPath := path, items := [], selectedIndex := 0, scrollOffset := 0,
      sortBy := .name, sortOrder := .ascending, filterText := "",
      history := [path], historyIndex := 0, gitRepoPath := fs.gitRepo path,
      selectedItems := [], selectionAnchor := none }
  match refresh fs p with
  | (p1, true) => some p1
  | (_, false) => none

/-- A sequence of `navigate_to` calls, stopping at the first failure
(as a caller propagating the error with `?` would). -/
def navigateSeq (fs : Fs) (p : Pane) : List FsPath → Pane × Bool
  | [] => (p, true)
  | path :: rest =>
    match navigateTo fs p path with
    | (p1, true) => navigateSeq fs p1 rest
    | (p1, false) => (p1, false)

/-! ### The diff engine (`compute_diff` of `filesystem.rs`) -/

/-- Kinds of diff lines (`enum DiffLineType`). -/
inductive DiffLineType where
  | equal
  | added
  | removed
  | modified
deriving DecidableEq, Repr

/-- One output line of the diff (`struct DiffLine`). -/
structure DiffLine where
  lineType : DiffLineType
  leftLineNum : Option Nat
  rightLineNum : Option Nat
  leftContent : String
  rightContent : String
deriving DecidableEq, Repr

/-- The `Added` line `compute_diff` pushes for right index `rj`. -/
def addedLine (r : List String) (rj : Nat) : DiffLine :=
  { lineType := .added, leftLineNum := none, rightLineNum := some (rj + 1),
    leftContent := "", rightContent := r.getD rj "" }

/-- The `Removed` line `compute_diff` pushes for left index `li`. -/
def removedLine (l : List String) (li : Nat) : DiffLine :=
  { lineType := .removed, leftLineNum := some (li + 1), rightLineNum := none,
    leftContent := l.getD li "", rightContent := "" }

/-- The `Equal` line `compute_diff` pushes for indices `li`, `rj`. -/
def equalLine (l r : List String) (li rj : Nat) : DiffLine :=
  { lineType := .equal, leftLineNum := some (li + 1), rightLineNum := some (rj + 1),
    leftContent := l.getD li "", rightContent := r.getD rj "" }

/-- The `Modified` pairing `compute_diff` pushes for indices `li`, `rj`. -/
def modifiedLine (l r : List String) (li rj : Nat) : DiffLine :=
  { lineType := .modified, leftLineNum := some (li + 1), rightLineNum := some (rj + 1),
    leftContent := l.getD li "", rightContent := r.getD rj "" }

/-- A removed-side resync chance at distance `d`: the lookahead
condition `left_idx + i < left_lines.len() && left[left_idx+i] ==
right[right_idx]` of `compute_diff`. -/
def removedResync (l r : List String) (li rj d : Nat) : Prop :=
  li + d < l.length ∧ l.getD (li + d) "" = r.getD rj ""

instance (l r : List String) (li rj d : Nat) :
    Decidable (removedResync l r li rj d) := by
  unfold removedResync; infer_instance

/-- An added-side resync chance at distance `d`: the lookahead
condition `right_idx + i < right_lines.len() && left[left_idx] ==
right[right_idx+i]` of `compute_diff`. -/
def addedResync (l r : List String) (li rj d : Nat) : Prop :=
  rj + d < r.length ∧ l.getD li "" = r.getD (rj + d) ""

instance (l r : List String) (li rj d : Nat) :
    Decidable (addedResync l r li rj d) := by
  unfold addedResync; infer_instance

/-- One distance of the lookahead: the removed-side check is tried
before the added-side check, exactly as in the source's loop body.
`some true` is a removed-side hit, `some false` an added-side hit. -/
def resyncAt (l r : List String) (li rj d : Nat) : Option Bool :=
  if removedResync l r li rj d then some true
  else if addedResync l r li rj d then some false
  else none

/-- The lookahead loop from distance `d` with `steps` distances left to
try; the first hit wins. -/
def findResyncGo (l r : List String) (li rj : Nat) : Nat → Nat → Option (Nat × Bool)
  | _, 0 => none
  | d, steps + 1 =>
    match resyncAt l r li rj d with
    | some side => some (d, side)
    | none => findResyncGo l r li rj (d + 1) steps

/-- The full lookahead of `compute_diff`: distances 1 to 5 (the
`for i in 1..=look_ahead` loop). -/
def findResync (l r : List String) (li rj : Nat) : Option (Nat × Bool) :=
  findResyncGo l r li rj 1 5

/-- The line-alignment loop of `compute_diff`, with explicit fuel: one
unit of fuel per iteration of the `while` loop, `none` when the fuel
runs out before the loop does. Every branch mirrors the source:
right/left exhaustion, equality, a lookahead resync emitting a run of
`Removed` or `Added` lines, or a single `Modified` pairing. -/
def diffAux (l r : List String) : Nat → Nat → Nat → Option (List DiffLine)
  | 0, li, rj => if li < l.length ∨ rj < r.length then none else some []
  | fuel + 1, li, rj =>
    if li < l.length ∨ rj < r.length then
      if l.length ≤ li then
        (diffAux l r fuel li (rj + 1)).map (fun rest => addedLine r rj :: rest)
      else if r.length ≤ rj then
        (diffAux l r fuel (li + 1) rj).map (fun rest => removedLine l li :: rest)
      else if l.getD li "" = r.getD rj "" then
        (diffAux l r fuel (li + 1) (rj + 1)).map (fun rest => equalLine l r li rj :: rest)
      else
        match findResync l r li rj with
        | some (d, true) =>
          (diffAux l r fuel (li + d) rj).map
            (fun rest => ((List.range d).map fun k => removedLine l (li + k)) ++ rest)
        | some (d, false) =>
          (diffAux l r fuel li (rj + d)).map
            (fun rest => ((List.range d).map fun k => addedLine r (rj + k)) ++ rest)
        | none =>
          (diffAux l r fuel (li + 1) (rj + 1)).map
            (fun rest => modifiedLine l r li rj :: rest)
    else some []

/-- Embedding of `compute_diff`: run the loop from both cursors at 0.
The fuel `l.length + r.length` always suffices (proved below), so the
`getD` default is never reached. -/
def computeDiff (l r : List String) : List DiffLine :=
  (diffAux l r (l.length + r.length) 0 0).getD []

/-- The per-kind tallies of `compare_text_files`. -/
structure DiffCounts where
  equal : Nat
  added : Nat
  removed : Nat
  modified : Nat
deriving DecidableEq, Repr

/-- Tally diff lines by kind, as the counting loop of
`compare_text_files` does. -/
def diffCounts (lines : List DiffLine) : DiffCounts :=
  lines.foldl
    (fun acc dl =>
      match dl.lineType with
      | .equal => { acc with equal := acc.equal + 1 }
      | .added => { acc with added := acc.added + 1 }
      | .removed => { acc with removed := acc.removed + 1 }
      | .modified => { acc with modified := acc.modified + 1 })
    { equal := 0, added := 0, removed := 0, modified := 0 }

/-! ### The search engine (`search_files` / `search_recursive` of `filesystem.rs`) -/

/-- Type filter of a search (`enum SearchFileType`). -/
inductive SearchFileType where
  | all
  | files
  | directories
deriving DecidableEq, Repr

/-- Search criteria (`struct SearchCriteria`, minus the root path,
which the embedding passes separately as the walked subtree). -/
structure SearchCriteria where
  filenamePattern : String
  contentPattern : String
  minSize : Option Nat
  maxSize : Option Nat
  modifiedAfter : Option Nat
  modifiedBefore : Option Nat
  fileType : SearchFileType
  caseSensitive : Bool
  includeHidden : Bool

mutual
/-- A directory subtree as the walker sees it. `metaOk` models whether
`entry.metadata()` succeeds (on failure the entry is skipped
entirely); a file's `content` is `none` when the file is unreadable or
not UTF-8; a directory's `readable` models whether `fs::read_dir` on
it succeeds (on failure its children are silently skipped). -/
inductive FsEntry where
  | file (name : String) (size modifiedAt : Nat) (metaOk : Bool) (content : Option String)
  | dir (name : String) (size modifiedAt : Nat) (metaOk : Bool) (readable : Bool)
      (children : FsForest)
inductive FsForest where
  | nil
  | cons (e : FsEntry) (rest : FsForest)
end

/-- Name of a tree entry. -/
def FsEntry.name : FsEntry → String
  | .file n .. => n
  | .dir n .. => n

/-- Size of a tree entry (`metadata.len()`). -/
def FsEntry.size : FsEntry → Nat
  | .file _ s .. => s
  | .dir _ s .. => s

/-- Modification time of a tree entry. -/
def FsEntry.modifiedAt : FsEntry → Nat
  | .file _ _ m .. => m
  | .dir _ _ m .. => m

/-- Whether the metadata read succeeds. -/
def FsEntry.metaOk : FsEntry → Bool
  | .file _ _ _ mo _ => mo
  | .dir _ _ _ mo .. => mo

/-- Whether a tree entry is a directory (`metadata.is_dir()`). -/
def FsEntry.isDir : FsEntry → Bool
  | .file .. => false
  | .dir .. => true

/-- Content of a tree entry, for the content-substring test (what a
successful UTF-8 `read_to_string` would return). -/
def FsEntry.content : FsEntry → Option String
  | .file _ _ _ _ c => c
  | .dir .. => none

/-- Substring containment of `needle` in a character list, Rust's
`str::contains` with a `&str` pattern (the empty needle matches). -/
def containsSub (needle : List Char) : List Char → Bool
  | [] => needle.isEmpty
  | c :: t => needle.isPrefixOf (c :: t) || containsSub needle t

/-- Rust `hay.contains(pat)` on strings. -/
def strContains (hay pat : String) : Bool :=
  containsSub pat.toList hay.toList

/-- Rust `name.starts_with('.')`. -/
def startsWithDot (s : String) : Bool :=
  match s.toList with
  | c :: _ => c = '.'
  | [] => false

/-- The filename substring test of `search_recursive` (case folded
unless `case_sensitive`). -/
def filenameMatches (c : SearchCriteria) (name : String) : Bool :=
  if c.caseSensitive then strContains name c.filenamePattern
  else strContains (strToLower name) (strToLower c.filenamePattern)

/-- Embedding of `search_file_content`: unreadable / non-UTF-8 files
never match. -/
def searchFileContent (content : Option String) (pattern : String)
    (caseSensitive : Bool) : Bool :=
  match content with
  | none => false
  | some text =>
    if caseSensitive then strContains text pattern
    else strContains (strToLower text) (strToLower pattern)

mutual
/-- The per-entry loop body of `search_recursive`, on one entry and,
mutually, on a forest of siblings. `pre` is the path of the directory
being walked; results are accumulated in source order (a matched entry
precedes the results from its own subtree). Each failed check excludes
the entry from the results but still recurses into it when it is a
directory, exactly as each `continue` site in the source does; `kids`
is that recursion (`search_recursive(&entry_path, ...)`): nothing for
a file, the walk of the subtree for a readable directory, nothing for
an unreadable one (the `Err(_) => return Ok(())` of the source). -/
def searchEntry (c : SearchCriteria) (pre : FsPath) (e : FsEntry) : List FileItem :=
  let kids : List FileItem :=
    match e with
    | .file .. => []
    | .dir n _ _ _ readable children =>
      if readable then searchForest c (pre ++ [n]) children else []
  if !c.includeHidden && startsWithDot e.name then []
  else if !e.metaOk then []
  else if (decide (c.fileType = .files)) && e.isDir then kids
  else if (decide (c.fileType = .directories)) && !e.isDir then []
  else if !c.filenamePattern.isEmpty && !filenameMatches c e.name then kids
  else if (match c.minSize with | some m => decide (e.size < m) | none => false) then
    kids
  else if (match c.maxSize with | some m => decide (m < e.size) | none => false) then
    kids
  else if (match c.modifiedAfter with | some t => decide (e.modifiedAt < t) | none => false) then
    kids
  else if (match c.modifiedBefore with | some t => decide (t < e.modifiedAt) | none => false) then
    kids
  else if !c.contentPattern.isEmpty && !e.isDir
      && !searchFileContent e.content c.contentPattern c.caseSensitive then []
  else
    { name := e.name, path := pre ++ [e.name], isDir := e.isDir, size := e.size,
      modified := e.modifiedAt, gitStatus := none } :: kids
termination_by structural e

def searchForest (c : SearchCriteria) (pre : FsPath) (f : FsForest) : List FileItem :=
  match f with
  | .nil => []
  | .cons e rest => searchEntry c pre e ++ searchForest c pre rest
termination_by structural f
end

/-- The recursion into an entry's children, as a standalone function
(definitionally the `kids` of `searchEntry`). -/
def searchChildren (c : SearchCriteria) (pre : FsPath) : FsEntry → List FileItem
  | .file .. => []
  | .dir n _ _ _ readable children =>
    if readable then searchForest c (pre ++ [n]) children else []

/-- The `FileItem` that `search_recursive` pushes for the tree node at
full path `pe.1`. -/
def toItemAt (pe : FsPath × FsEntry) : FileItem :=
  { name := pe.2.name, path := pe.1, isDir := pe.2.isDir, size := pe.2.size,
    modified := pe.2.modifiedAt, gitStatus := none }

/-- Conjunction of the per-entry checks of `search_recursive`; each
conjunct is the negation of one `continue` condition of the source
(type filter, filename substring, size bounds, modified-time bounds,
content substring). The hidden and metadata checks are not part of it:
an entry failing those is not even visited. -/
def matchesCriteria (c : SearchCriteria) (e : FsEntry) : Bool :=
  !((decide (c.fileType = .files)) && e.isDir) &&
  !((decide (c.fileType = .directories)) && !e.isDir) &&
  !(!c.filenamePattern.isEmpty && !filenameMatches c e.name) &&
  !(match c.minSize with | some m => decide (e.size < m) | none => false) &&
  !(match c.maxSize with | some m => decide (m < e.size) | none => false) &&
  !(match c.modifiedAfter with | some t => decide (e.modifiedAt < t) | none => false) &&
  !(match c.modifiedBefore with | some t => decide (t < e.modifiedAt) | none => false) &&
  !(!c.contentPattern.isEmpty && !e.isDir &&
    !searchFileContent e.content c.contentPattern c.caseSensitive)

mutual
/-- The nodes the walker visits below one entry, each with its full
path, in visitation (pre-)order: an entry is visited exactly when it
passes the hidden check and its metadata read succeeds; the children
of a visited readable directory are visited in turn — regardless of
whether the entry itself matches any criterion. -/
def visibleEntry (c : SearchCriteria) (pre : FsPath) (e : FsEntry) :
    List (FsPath × FsEntry) :=
  let kids : List (FsPath × FsEntry) :=
    match e with
    | .file .. => []
    | .dir n _ _ _ readable children =>
      if readable then visibleForest c (pre ++ [n]) children else []
  if (!c.includeHidden && startsWithDot e.name) || !e.metaOk then []
  else (pre ++ [e.name], e) :: kids
termination_by structural e

def visibleForest (c : SearchCriteria) (pre : FsPath) (f : FsForest) :
    List (FsPath × FsEntry) :=
  match f with
  | .nil => []
  | .cons e rest => visibleEntry c pre e ++ visibleForest c pre rest
termination_by structural f
end

/-- The visited nodes below an entry's children, as a standalone
function (definitionally the `kids` of `visibleEntry`). -/
def visibleChildren (c : SearchCriteria) (pre : FsPath) :
    FsEntry → List (FsPath × FsEntry)
  | .file .. => []
  | .dir n _ _ _ readable children =>
    if readable then visibleForest c (pre ++ [n]) children else []

/-! ### Concrete fixtures used by witnesses and counterexamples -/

/-- Whether a path has a parent directory (`Path::parent` is `Some`);
the filesystem root `[]` is the only path without one. -/
def hasParent (p : FsPath) : Bool := !p.isEmpty

/-- A plain file named "a". -/
def itemA : FileItem :=
  { name := "a", path := ["a"], isDir := false, size := 5, modified := 1,
    gitStatus := none }

/-- A directory named "b". -/
def itemB : FileItem :=
  { name := "b", path := ["b"], isDir := true, size := 0, modified := 2,
    gitStatus := none }

/-- A filesystem in which only the root is listable (it is empty) and
every other directory fails to list. -/
def rootOnlyFs : Fs :=
  { listing := fun p => if p = [] then some [] else none,
    gitRepo := fun _ => none, gitStatuses := fun _ => none }

/-- A filesystem in which every directory lists successfully (as
empty). -/
def allOkFs : Fs :=
  { listing := fun _ => some [],
    gitRepo := fun _ => none, gitStatuses := fun _ => none }

/-- A pane sitting at the root with the sentinel, one file and one
directory, default sort, no selection. -/
def basePane : Pane :=
  { currentPath := [], items := [FileItem.parentDir, itemA, itemB],
    selectedIndex := 0, scrollOffset := 0, sortBy := .name,
    sortOrder := .ascending, filterText := "", history := [[]],
    historyIndex := 0, gitRepoPath := none, selectedItems := [],
    selectionAnchor := none }

/-! ### Helper lemmas about refresh -/

theorem extractParent_cons_parent (xs : List FileItem) :
    extractParent (FileItem.parentDir :: xs) = some (FileItem.parentDir, xs) := by
  simp [extractParent, FileItem.parentDir]

theorem applyGitStatusMap_cons_parent (m : FsPath → Option GitStatus)
    (xs : List FileItem) :
    applyGitStatusMap m (FileItem.parentDir :: xs) =
      FileItem.parentDir :: applyGitStatusMap m xs := by
  simp [applyGitStatusMap, FileItem.parentDir]

theorem applySortItems_cons_parent (sb : SortBy) (so : SortOrder)
    (xs : List FileItem) :
    applySortItems sb so (FileItem.parentDir :: xs) =
      FileItem.parentDir :: xs.insertionSort (sortRel sb so) := by
  simp [applySortItems, extractParent_cons_parent]

theorem gitApply_cons_parent (fs : Fs) (p : Pane) (xs : List FileItem) :
    ∃ ys, gitApply fs p (FileItem.parentDir :: xs) = FileItem.parentDir :: ys := by
  cases hrp : p.gitRepoPath with
  | none => exact ⟨xs, by simp [gitApply, hrp]⟩
  | some repoPath =>
    cases hst : fs.gitStatuses repoPath with
    | none => exact ⟨xs, by simp [gitApply, hrp, hst]⟩
    | some statusMap =>
      exact ⟨applyGitStatusMap statusMap xs,
        by simp [gitApply, hrp, hst, applyGitStatusMap_cons_parent]⟩

theorem readDirectory_some (fs : Fs) (path : FsPath) (l : List FileItem)
    (h : readDirectory fs path = some l) :
    ∃ cs, l = FileItem.parentDir :: cs := by
  unfold readDirectory at h
  cases hd : fs.listing path with
  | none => rw [hd] at h; cases h
  | some children => rw [hd] at h; exact ⟨_, (Option.some.injEq .. ▸ h).symm⟩

theorem refresh_fail (fs : Fs) (p p' : Pane) (h : refresh fs p = (p', false)) :
    p' = p ∧ readDirectory fs p.currentPath = none := by
  unfold refresh at h
  cases hd : readDirectory fs p.currentPath with
  | none =>
    rw [hd] at h
    exact ⟨((Prod.mk.injEq ..).mp h).1.symm, rfl⟩
  | some l =>
    rw [hd] at h
    simp at h

theorem refresh_success_spec (fs : Fs) (p p' : Pane)
    (h : refresh fs p = (p', true)) :
    ∃ l, readDirectory fs p.currentPath = some l ∧
      p'.items = applySortItems p.sortBy p.sortOrder (gitApply fs p l) ∧
      p'.currentPath = p.currentPath ∧ p'.history = p.history ∧
      p'.historyIndex = p.historyIndex ∧ p'.sortBy = p.sortBy ∧
      p'.sortOrder = p.sortOrder ∧ p'.gitRepoPath = p.gitRepoPath ∧
      p'.scrollOffset = p.scrollOffset ∧ p'.filterText = p.filterText ∧
      p'.selectedItems = p.selectedItems ∧
      p'.selectionAnchor = p.selectionAnchor ∧
      p'.selectedIndex =
        (if p.selectedIndex ≥ p'.items.length ∧ p'.items ≠ [] then
          p'.items.length - 1 else p.selectedIndex) := by
  unfold refresh at h
  cases hd : readDirectory fs p.currentPath with
  | none => rw [hd] at h; simp at h
  | some l =>
    rw [hd] at h
    refine ⟨l, rfl, ?_⟩
    obtain ⟨hp, -⟩ := (Prod.mk.injEq ..).mp h
    subst hp
    simp

/-- The pane `Pane::new([])` yields on `rootOnlyFs`: at the root with
only the ".." sentinel listed. -/
def rootPane : Pane :=
  { currentPath := [], items := [FileItem.parentDir], selectedIndex := 0,
    scrollOffset := 0, sortBy := .name, sortOrder := .ascending,
    filterText := "", history := [[]], historyIndex := 0, gitRepoPath := none,
    selectedItems := [], selectionAnchor := none }

/-! ### C1 -/

/-- C1, counterexample to the claim as stated: on `rootOnlyFs`, a pane
freshly created at the root navigates to the unlistable directory
`["bad"]`; the call fails (flag `false`), yet afterwards
`current_path` is `["bad"]`, not the pre-call value `[]` — the
navigation target is assigned before the fallible refresh and is never
rolled back. -/
theorem navigateTo_failure_cex :
    paneNew rootOnlyFs [] = some rootPane ∧
    (navigateTo rootOnlyFs rootPane ["bad"]).2 = false ∧
    (navigateTo rootOnlyFs rootPane ["bad"]).1.currentPath = ["bad"] ∧
    rootPane.currentPath = [] := by decide

/-- C1 (amended): when the internal refresh of `navigate_to(path)`
fails, the error is returned and `history`, `history_cursor`, the
entries and the cursor (and the selection) all keep their pre-call
values, but `current_path` (and the tracked git repository) are left
set to the attempted target `path` — they are not rolled back to their
pre-call values. -/
theorem navigateTo_failure_effects (fs : Fs) (p : Pane) (path : FsPath)
    (p' : Pane) (h : navigateTo fs p path = (p', false)) :
    p'.history = p.history ∧ p'.historyIndex = p.historyIndex ∧
    p'.items = p.items ∧ p'.selectedIndex = p.selectedIndex ∧
    p'.scrollOffset = p.scrollOffset ∧ p'.selectedItems = p.selectedItems ∧
    p'.selectionAnchor = p.selectionAnchor ∧
    p'.currentPath = path ∧ p'.gitRepoPath = fs.gitRepo path := by
  unfold navigateTo at h
  dsimp only [] at h
  rcases hr : refresh fs { p with currentPath := path, gitRepoPath := fs.gitRepo path }
    with ⟨p1, ok⟩
  rw [hr] at h
  cases ok with
  | true =>
    exfalso
    have hsnd := congrArg Prod.snd h
    simp only [apply_ite Prod.snd] at hsnd
    split at hsnd <;> split at hsnd <;> simp_all
  | false =>
    obtain ⟨hp1, -⟩ := (Prod.mk.injEq ..).mp h
    obtain ⟨hp0, -⟩ :=
      refresh_fail fs { p with currentPath := path, gitRepoPath := fs.gitRepo path } p1 hr
    subst hp1
    rw [hp0]
    simp

/-- C1 witness: the amended theorem applied to the concrete failing
navigation of `navigateTo_failure_cex`. -/
theorem navigateTo_failure_effects_witness :
    (navigateTo rootOnlyFs rootPane ["bad"]).1.history = rootPane.history ∧
    (navigateTo rootOnlyFs rootPane ["bad"]).1.historyIndex = rootPane.historyIndex ∧
    (navigateTo rootOnlyFs rootPane ["bad"]).1.items = rootPane.items ∧
    (navigateTo rootOnlyFs rootPane ["bad"]).1.selectedIndex = rootPane.selectedIndex ∧
    (navigateTo rootOnlyFs rootPane ["bad"]).1.scrollOffset = rootPane.scrollOffset ∧
    (navigateTo rootOnlyFs rootPane ["bad"]).1.selectedItems = rootPane.selectedItems ∧
    (navigateTo rootOnlyFs rootPane ["bad"]).1.selectionAnchor = rootPane.selectionAnchor ∧
    (navigateTo rootOnlyFs rootPane ["bad"]).1.currentPath = ["bad"] ∧
    (navigateTo rootOnlyFs rootPane ["bad"]).1.gitRepoPath = rootOnlyFs.gitRepo ["bad"] :=
  navigateTo_failure_effects rootOnlyFs rootPane ["bad"]
    (navigateTo rootOnlyFs rootPane ["bad"]).1 (by decide)

/-! ### C3 -/

/-- The concrete pane `basePane` after one extending move
(`move_down_with_selection`): anchor 0, cursor 1, selection `{0, 1}`. -/
def selPane : Pane := moveDownWithSelection basePane

/-- C3, counterexample to the claim as stated: with a selection
established by an extending move, a plain `move_up` (and `move_down`)
leaves `selected_items` and `selection_anchor` untouched — the simple
cursor moves of `pane.rs` do not clear the selection. -/
theorem moveUp_keeps_selection_cex :
    selPane.selectedItems = [0, 1] ∧ selPane.selectionAnchor = some 0 ∧
    (moveUp selPane).selectedItems = [0, 1] ∧
    (moveUp selPane).selectionAnchor = some 0 ∧
    (moveDown selPane).selectedItems = [0, 1] ∧
    (moveDown selPane).selectionAnchor = some 0 := by decide

/-- C3 (amended): the simple cursor moves `move_up` / `move_down` only
move the cursor and never touch the selection; the selection is
cleared only by an explicit `clear_selection` call (which the TUI
front end issues separately before each simple move). -/
theorem moveCursor_preserves_selection :
    (∀ p : Pane, (moveUp p).selectedItems = p.selectedItems ∧
      (moveUp p).selectionAnchor = p.selectionAnchor) ∧
    (∀ p : Pane, (moveDown p).selectedItems = p.selectedItems ∧
      (moveDown p).selectionAnchor = p.selectionAnchor) ∧
    (∀ p : Pane, (clearSelection p).selectedItems = [] ∧
      (clearSelection p).selectionAnchor = none) := by
  refine ⟨fun p => ?_, fun p => ?_, fun p => ⟨rfl, rfl⟩⟩
  · unfold moveUp; split <;> exact ⟨rfl, rfl⟩
  · unfold moveDown; split <;> exact ⟨rfl, rfl⟩

/-! ### C4 -/

/-- C4, counterexample to the claim as stated: the filesystem root `[]`
has no parent, yet after the successful initial refresh of a pane
created at the root the ".." sentinel is present (and first) — neither
`read_directory` nor any caller suppresses it at the root. -/
theorem refresh_root_sentinel_cex :
    hasParent [] = false ∧
    paneNew rootOnlyFs [] = some rootPane ∧
    rootPane.items.map (fun it => it.name) = [".."] := by decide

/-- C4 (amended): after every successful refresh, `entries[0]` is the
synthetic ".." sentinel — unconditionally, whether or not
`current_path` has a parent, including at the filesystem root
(`read_directory` always prepends it and `apply_sort` keeps it at
index 0). -/
theorem refresh_head_is_sentinel (fs : Fs) (p p' : Pane)
    (h : refresh fs p = (p', true)) :
    p'.items.head? = some FileItem.parentDir := by
  obtain ⟨l, hl, hitems, -⟩ := refresh_success_spec fs p p' h
  obtain ⟨cs, rfl⟩ := readDirectory_some fs p.currentPath l hl
  obtain ⟨ys, hg⟩ := gitApply_cons_parent fs p cs
  rw [hitems, hg, applySortItems_cons_parent]
  rfl

/-- C4 witness: the amended theorem applied to a concrete successful
refresh. -/
theorem refresh_head_is_sentinel_witness :
    (refresh allOkFs basePane).1.items.head? = some FileItem.parentDir :=
  refresh_head_is_sentinel allOkFs basePane (refresh allOkFs basePane).1 (by decide)

/-! ### C5 -/

/-- C5: `refresh` is transactional. On a listing failure the pane is
returned exactly as it was (entries and cursor included) together with
the error; on success the entries become the new listing (git
decoration applied, active sort re-applied) and the cursor is clamped:
kept when still in range, set to `entries.len() - 1` when out of
range. The clamped cursor is always a valid index, since a successful
listing always contains at least the ".." sentinel (so the "0 if
empty" case of the claim is vacuous). -/
theorem refresh_transactional (fs : Fs) (p p' : Pane) (ok : Bool)
    (h : refresh fs p = (p', ok)) :
    (ok = false → p' = p ∧ readDirectory fs p.currentPath = none) ∧
    (ok = true → ∃ l, readDirectory fs p.currentPath = some l ∧
      p'.items = applySortItems p.sortBy p.sortOrder (gitApply fs p l) ∧
      p'.selectedIndex < p'.items.length ∧
      (p.selectedIndex < p'.items.length → p'.selectedIndex = p.selectedIndex) ∧
      (p'.items.length ≤ p.selectedIndex →
        p'.selectedIndex = p'.items.length - 1)) := by
  constructor
  · intro hok; subst hok; exact refresh_fail fs p p' h
  · intro hok; subst hok
    obtain ⟨l, hl, hitems, -, -, -, -, -, -, -, -, -, -, hsel⟩ :=
      refresh_success_spec fs p p' h
    obtain ⟨cs, rfl⟩ := readDirectory_some fs p.currentPath l hl
    obtain ⟨ys, hg⟩ := gitApply_cons_parent fs p cs
    have hne : p'.items ≠ [] := by
      rw [hitems, hg, applySortItems_cons_parent]; simp
    have hpos : 0 < p'.items.length := by
      cases hi : p'.items with
      | nil => exact absurd hi hne
      | cons a t => simp [hi]
    refine ⟨FileItem.parentDir :: cs, hl, hitems, ?_, ?_, ?_⟩
    · by_cases hc : p.selectedIndex ≥ p'.items.length ∧ p'.items ≠ []
      · rw [if_pos hc] at hsel; omega
      · rw [if_neg hc] at hsel
        have : p.selectedIndex < p'.items.length := by
          rcases Classical.em (p.selectedIndex ≥ p'.items.length) with hge | hlt
          · exact absurd ⟨hge, hne⟩ hc
          · omega
        omega
    · intro hlt
      have hc : ¬ (p.selectedIndex ≥ p'.items.length ∧ p'.items ≠ []) := by
        rintro ⟨hge, -⟩; omega
      rw [if_neg hc] at hsel; exact hsel
    · intro hge
      rw [if_pos ⟨hge, hne⟩] at hsel; exact hsel

/-- C5 witness: the transactionality theorem applied to a concrete
successful refresh. -/
theorem refresh_transactional_witness :
    (true = false → (refresh allOkFs basePane).1 = basePane ∧
      readDirectory allOkFs basePane.currentPath = none) ∧
    (true = true → ∃ l, readDirectory allOkFs basePane.currentPath = some l ∧
      (refresh allOkFs basePane).1.items =
        applySortItems basePane.sortBy basePane.sortOrder
          (gitApply allOkFs basePane l) ∧
      (refresh allOkFs basePane).1.selectedIndex <
        (refresh allOkFs basePane).1.items.length ∧
      (basePane.selectedIndex < (refresh allOkFs basePane).1.items.length →
        (refresh allOkFs basePane).1.selectedIndex = basePane.selectedIndex) ∧
      ((refresh allOkFs basePane).1.items.length ≤ basePane.selectedIndex →
        (refresh allOkFs basePane).1.selectedIndex =
          (refresh allOkFs basePane).1.items.length - 1)) :=
  refresh_transactional allOkFs basePane (refresh allOkFs basePane).1 true (by decide)

/-! ### C2: the Name comparator and the direction flip -/

theorem Ordering_swap_ne_gt (o : Ordering) : o.swap ≠ .gt ↔ o ≠ .lt := by
  cases o <;> simp [Ordering.swap]

theorem cmpStr_ne_gt_iff (a b : String) : cmpStr a b ≠ .gt ↔ a ≤ b := by
  unfold cmpStr
  split_ifs with h1 h2
  · simpa using le_of_lt h1
  · simpa using not_le.mpr h2
  · simpa using le_of_not_lt h2

theorem cmpStr_ne_lt_iff (a b : String) : cmpStr a b ≠ .lt ↔ b ≤ a := by
  unfold cmpStr
  split_ifs with h1 h2
  · simpa using not_le.mpr h1
  · simpa using le_of_lt h2
  · simpa using le_of_not_lt h1

/-- Rank used to state the directories-first rule: directories are 0,
files are 1. -/
def dirRank (it : FileItem) : Nat := if it.isDir then 0 else 1

theorem sortRel_name_asc_iff (a b : FileItem) :
    sortRel .name .ascending a b ↔
      dirRank a < dirRank b ∨
        (dirRank a = dirRank b ∧ strToLower a.name ≤ strToLower b.name) := by
  unfold sortRel directedCmp itemCmp dirRank
  cases ha : a.isDir <;> cases hb : b.isDir <;> simp [cmpStr_ne_gt_iff]

theorem sortRel_name_desc_iff (a b : FileItem) :
    sortRel .name .descending a b ↔
      dirRank b < dirRank a ∨
        (dirRank b = dirRank a ∧ strToLower b.name ≤ strToLower a.name) := by
  unfold sortRel directedCmp itemCmp dirRank
  cases ha : a.isDir <;> cases hb : b.isDir <;>
    simp [Ordering_swap_ne_gt, cmpStr_ne_lt_iff]

instance : IsTrans FileItem (sortRel .name .ascending) :=
  ⟨fun a b c hab hbc => by
    rw [sortRel_name_asc_iff] at hab hbc ⊢
    rcases hab with h | ⟨h1, h2⟩ <;> rcases hbc with h' | ⟨h1', h2'⟩
    · exact Or.inl (lt_trans h h')
    · exact Or.inl (h1' ▸ h)
    · exact Or.inl (h1 ▸ h')
    · exact Or.inr ⟨h1.trans h1', le_trans h2 h2'⟩⟩

instance : IsTotal FileItem (sortRel .name .ascending) :=
  ⟨fun a b => by
    rw [sortRel_name_asc_iff, sortRel_name_asc_iff]
    rcases lt_trichotomy (dirRank a) (dirRank b) with h | h | h
    · exact Or.inl (Or.inl h)
    · rcases le_total (strToLower a.name) (strToLower b.name) with hs | hs
      · exact Or.inl (Or.inr ⟨h, hs⟩)
      · exact Or.inr (Or.inr ⟨h.symm, hs⟩)
    · exact Or.inr (Or.inl h)⟩

instance : IsTrans FileItem (sortRel .name .descending) :=
  ⟨fun a b c hab hbc => by
    rw [sortRel_name_desc_iff] at hab hbc ⊢
    rcases hab with h | ⟨h1, h2⟩ <;> rcases hbc with h' | ⟨h1', h2'⟩
    · exact Or.inl (lt_trans h' h)
    · exact Or.inl (h1' ▸ h)
    · exact Or.inl (h1 ▸ h')
    · exact Or.inr ⟨h1'.trans h1, le_trans h2' h2⟩⟩

instance : IsTotal FileItem (sortRel .name .descending) :=
  ⟨fun a b => by
    rw [sortRel_name_desc_iff, sortRel_name_desc_iff]
    rcases lt_trichotomy (dirRank a) (dirRank b) with h | h | h
    · exact Or.inr (Or.inl h)
    · rcases le_total (strToLower a.name) (strToLower b.name) with hs | hs
      · exact Or.inr (Or.inr ⟨h, hs⟩)
      · exact Or.inl (Or.inr ⟨h.symm, hs⟩)
    · exact Or.inl (Or.inl h)⟩

/-- C2, counterexample to the claim as stated: a pane already sorted by
`Name` is toggled to `Descending`; afterwards the file "a" precedes
the directory "b" among the non-sentinel entries — the direction flip
reverses the whole comparator, including the directories-first rule,
not only the name order among same-kind entries. -/
theorem toggleSort_name_descending_cex :
    basePane.sortBy = .name ∧
    (toggleSort basePane .name).sortOrder = .descending ∧
    (toggleSort basePane .name).items.map (fun it => (it.name, it.isDir)) =
      [("..", true), ("a", false), ("b", true)] := by decide

/-- C2 (amended): with `sort_key = Name`, `apply_sort` keeps the ".."
sentinel first and stably sorts the rest by the directed comparator.
Under `Ascending` every directory precedes every non-directory among
the non-sentinel entries; under `Descending` the entire comparison is
reversed, so every non-directory precedes every directory, and the
case-insensitive name order among entries of the same kind is flipped
as well (the output is sorted by the reversed relation). -/
theorem applySort_name_directions (so : SortOrder) (items : List FileItem)
    (par : FileItem) (rest : List FileItem)
    (h : extractParent items = some (par, rest)) :
    applySortItems .name so items =
      par :: rest.insertionSort (sortRel .name so) ∧
    (rest.insertionSort (sortRel .name so)).Perm rest ∧
    (rest.insertionSort (sortRel .name so)).Sorted (sortRel .name so) ∧
    (so = .ascending →
      (rest.insertionSort (sortRel .name so)).Pairwise
        fun a b => a.isDir = false → b.isDir = false) ∧
    (so = .descending →
      (rest.insertionSort (sortRel .name so)).Pairwise
        fun a b => a.isDir = true → b.isDir = true) := by
  have hsorted :
      (rest.insertionSort (sortRel .name so)).Sorted (sortRel .name so) := by
    cases so
    · exact List.sorted_insertionSort _ _
    · exact List.sorted_insertionSort _ _
  refine ⟨by unfold applySortItems; rw [h], List.perm_insertionSort _ _, hsorted, ?_, ?_⟩
  · rintro rfl
    refine List.Pairwise.imp ?_ hsorted
    intro a b hab hfa
    rw [sortRel_name_asc_iff] at hab
    cases hbb : b.isDir
    · rfl
    · simp [dirRank, hfa, hbb] at hab
  · rintro rfl
    refine List.Pairwise.imp ?_ hsorted
    intro a b hab hta
    rw [sortRel_name_desc_iff] at hab
    cases hbb : b.isDir
    · simp [dirRank, hta, hbb] at hab
    · rfl

/-- C2 witness: the amended theorem applied to the concrete item list
of `basePane` (sentinel, file "a", directory "b") under `Ascending`. -/
theorem applySort_name_directions_witness :
    applySortItems .name .ascending [FileItem.parentDir, itemA, itemB] =
      FileItem.parentDir ::
        [itemA, itemB].insertionSort (sortRel .name .ascending) ∧
    ([itemA, itemB].insertionSort (sortRel .name .ascending)).Perm [itemA, itemB] ∧
    ([itemA, itemB].insertionSort (sortRel .name .ascending)).Sorted
      (sortRel .name .ascending) ∧
    (SortOrder.ascending = .ascending →
      ([itemA, itemB].insertionSort (sortRel .name .ascending)).Pairwise
        fun a b => a.isDir = false → b.isDir = false) ∧
    (SortOrder.ascending = .descending →
      ([itemA, itemB].insertionSort (sortRel .name .ascending)).Pairwise
        fun a b => a.isDir = true → b.isDir = true) :=
  applySort_name_directions .ascending [FileItem.parentDir, itemA, itemB]
    FileItem.parentDir [itemA, itemB] (by decide)

/-! ### C6: the navigation-history invariants -/

/-- The history invariant maintained by successful navigations: the
history is bounded by 50, the cursor sits on the last element, and the
last element is the current path (the history is in particular
non-empty). -/
def historyInv (p : Pane) : Prop :=
  p.history.length ≤ 50 ∧ p.historyIndex + 1 = p.history.length ∧
  p.history.getLast? = some p.currentPath

theorem paneNew_historyInv (fs : Fs) (path : FsPath) (p0 : Pane)
    (h : paneNew fs path = some p0) : historyInv p0 := by
  unfold paneNew at h
  dsimp only [] at h
  rcases hr : refresh fs
      { currentPath := path, items := [], selectedIndex := 0, scrollOffset := 0,
        sortBy := .name, sortOrder := .ascending, filterText := "",
        history := [path], historyIndex := 0, gitRepoPath := fs.gitRepo path,
        selectedItems := [], selectionAnchor := none }
    with ⟨p1, ok⟩
  rw [hr] at h
  cases ok with
  | false => cases h
  | true =>
    obtain rfl : p1 = p0 := by
      have := (Option.some.injEq ..).mp h; exact this
    obtain ⟨l, -, -, hcur, hhist, hhidx, -⟩ := refresh_success_spec fs _ p1 hr
    simp only [] at hcur hhist hhidx
    refine ⟨?_, ?_, ?_⟩
    · rw [hhist]; simp
    · rw [hhist, hhidx]; simp
    · rw [hhist, hcur]; simp

theorem navigateTo_preserves_historyInv (fs : Fs) (p : Pane) (path : FsPath)
    (p' : Pane) (hinv : historyInv p) (h : navigateTo fs p path = (p', true)) :
    historyInv p' := by
  obtain ⟨hle, hidx, hlast⟩ := hinv
  have hne : p.history ≠ [] := by
    intro h0; rw [h0] at hlast; cases hlast
  unfold navigateTo at h
  dsimp only [] at h
  rcases hr : refresh fs { p with currentPath := path, gitRepoPath := fs.gitRepo path }
    with ⟨p1, ok⟩
  rw [hr] at h
  cases ok with
  | false => simp at h
  | true =>
    obtain ⟨l, -, -, hcur, hhist, hhidx, -⟩ := refresh_success_spec fs _ p1 hr
    simp only [] at hcur hhist hhidx
    simp only [hcur, hhist, hhidx] at h
    have hlen : 0 < p.history.length := List.length_pos.mpr hne
    have hcond1 : ¬ (p.historyIndex < p.history.length - 1) := by omega
    rw [if_neg hcond1] at h
    by_cases hsame : p.history.getLast? = some path
    · rw [if_pos hsame] at h
      obtain ⟨hp', -⟩ := (Prod.mk.injEq ..).mp h
      subst hp'
      exact ⟨hle, hidx, by rw [hsame]⟩
    · rw [if_neg hsame] at h
      by_cases hover : (p.history ++ [path]).length > 50
      · rw [if_pos hover] at h
        obtain ⟨hp', -⟩ := (Prod.mk.injEq ..).mp h
        subst hp'
        obtain ⟨x, xs, hH⟩ : ∃ x xs, p.history = x :: xs := by
          cases hc : p.history with
          | nil => exact absurd hc hne
          | cons a b => exact ⟨a, b, rfl⟩
        rw [hH] at hover hle
        unfold historyInv
        simp only [hH]
        have htail : (x :: xs ++ [path]).tail = xs ++ [path] := rfl
        rw [htail]
        simp only [List.length_append, List.length_cons, List.length_nil] at hover hle ⊢
        refine ⟨by omega, by omega, ?_⟩
        simp [List.getLast?_concat]
      · rw [if_neg hover] at h
        obtain ⟨hp', -⟩ := (Prod.mk.injEq ..).mp h
        subst hp'
        unfold historyInv
        simp only [List.length_append, List.length_cons, List.length_nil] at hover ⊢
        refine ⟨by omega, by omega, ?_⟩
        simp [List.getLast?_concat]

theorem navigateSeq_historyInv (fs : Fs) (paths : List FsPath) :
    ∀ p p' : Pane, historyInv p → navigateSeq fs p paths = (p', true) →
      historyInv p' := by
  induction paths with
  | nil =>
    intro p p' hinv h
    unfold navigateSeq at h
    obtain ⟨hp, -⟩ := (Prod.mk.injEq ..).mp h
    exact hp ▸ hinv
  | cons path rest ih =>
    intro p p' hinv h
    unfold navigateSeq at h
    rcases hn : navigateTo fs p path with ⟨p1, ok⟩
    rw [hn] at h
    cases ok with
    | false => simp at h
    | true => exact ih p1 p' (navigateTo_preserves_historyInv fs p path p1 hinv hn) h

/-- C6, counterexample to the claim as stated: in a sequence consisting
of one failing `navigate_to` call on a freshly created pane, the
invariant `history[history_cursor] == current_path` does not hold
after that call (the history still holds the root while `current_path`
is the failed target). -/
theorem navigateSeq_failure_breaks_invariant_cex :
    paneNew rootOnlyFs [] = some rootPane ∧
    (navigateSeq rootOnlyFs rootPane
        [["bad"]]).1.history[(navigateSeq rootOnlyFs rootPane [["bad"]]).1.historyIndex]? ≠
      some (navigateSeq rootOnlyFs rootPane [["bad"]]).1.currentPath := by decide

/-- C6 (amended): for every sequence of successful `navigate_to` calls
on a freshly created pane, `history.len() <= 50` (oldest entry evicted
on overflow with the cursor adjusted) and
`history[history_cursor] == current_path` hold after every call (the
final state of any such sequence, and hence, `paths` being universally
quantified, after each intermediate call as well). When a call in the
sequence fails the second invariant can be broken, because the failed
target stays in `current_path`. -/
theorem navigateTo_sequence_invariants (fs : Fs) (start : FsPath)
    (p0 p : Pane) (paths : List FsPath) (h0 : paneNew fs start = some p0)
    (h : navigateSeq fs p0 paths = (p, true)) :
    p.history.length ≤ 50 ∧
    p.history[p.historyIndex]? = some p.currentPath := by
  obtain ⟨hle, hidx, hlast⟩ :=
    navigateSeq_historyInv fs paths p0 p (paneNew_historyInv fs start p0 h0) h
  refine ⟨hle, ?_⟩
  rw [List.getLast?_eq_getElem?] at hlast
  have hm : p.historyIndex = p.history.length - 1 := by omega
  rw [hm]
  exact hlast

/-- C6 witness: the invariant theorem applied to a one-call successful
sequence on `allOkFs`. -/
theorem navigateTo_sequence_invariants_witness :
    (navigateSeq allOkFs rootPane [["x"]]).1.history.length ≤ 50 ∧
    (navigateSeq allOkFs rootPane
        [["x"]]).1.history[(navigateSeq allOkFs rootPane [["x"]]).1.historyIndex]? =
      some (navigateSeq allOkFs rootPane [["x"]]).1.currentPath :=
  navigateTo_sequence_invariants allOkFs [] rootPane
    (navigateSeq allOkFs rootPane [["x"]]).1 [["x"]] (by decide) (by decide)

/-! ### C7 and C9: the diff lookahead and termination -/

theorem resyncAt_some_true_iff (l r : List String) (li rj d : Nat) :
    resyncAt l r li rj d = some true ↔ removedResync l r li rj d := by
  unfold resyncAt
  split_ifs with h1 h2
  · simp [h1]
  · simp [h1, h2]
  · simp [h1, h2]

theorem resyncAt_some_false_iff (l r : List String) (li rj d : Nat) :
    resyncAt l r li rj d = some false ↔
      ¬ removedResync l r li rj d ∧ addedResync l r li rj d := by
  unfold resyncAt
  split_ifs with h1 h2
  · simp [h1]
  · simp [h1, h2]
  · simp [h1, h2]

theorem resyncAt_none_iff (l r : List String) (li rj d : Nat) :
    resyncAt l r li rj d = none ↔
      ¬ removedResync l r li rj d ∧ ¬ addedResync l r li rj d := by
  unfold resyncAt
  split_ifs with h1 h2
  · simp [h1]
  · simp [h1, h2]
  · simp [h1, h2]

theorem findResyncGo_some_iff (l r : List String) (li rj : Nat) :
    ∀ (steps d0 d : Nat) (side : Bool),
      findResyncGo l r li rj d0 steps = some (d, side) ↔
        (d0 ≤ d ∧ d < d0 + steps ∧ resyncAt l r li rj d = some side ∧
          ∀ e, d0 ≤ e → e < d → resyncAt l r li rj e = none) := by
  intro steps
  induction steps with
  | zero =>
    intro d0 d side
    constructor
    · intro h; cases h
    · rintro ⟨h1, h2, -, -⟩; omega
  | succ n ih =>
    intro d0 d side
    unfold findResyncGo
    cases hres : resyncAt l r li rj d0 with
    | some b =>
      constructor
      · intro h
        rw [Option.some.injEq, Prod.mk.injEq] at h
        obtain ⟨rfl, rfl⟩ := h
        exact ⟨le_refl _, by omega, hres, fun e he1 he2 => by omega⟩
      · rintro ⟨h1, h2, h3, h4⟩
        have hd : d = d0 := by
          by_contra hne
          have hlt : d0 < d := by omega
          have := h4 d0 (le_refl _) hlt
          rw [this] at hres; cases hres
        subst hd
        rw [h3] at hres
        rw [(Option.some.injEq ..).mp hres]
    | none =>
      rw [ih (d0 + 1) d side]
      constructor
      · rintro ⟨h1, h2, h3, h4⟩
        refine ⟨by omega, by omega, h3, ?_⟩
        intro e he1 he2
        rcases Nat.eq_or_lt_of_le he1 with rfl | hgt
        · exact hres
        · exact h4 e (by omega) he2
      · rintro ⟨h1, h2, h3, h4⟩
        have hd : d ≠ d0 := by rintro rfl; rw [h3] at hres; cases hres
        exact ⟨by omega, by omega, h3, fun e he1 he2 => h4 e (by omega) he2⟩

theorem findResyncGo_none_iff (l r : List String) (li rj : Nat) :
    ∀ (steps d0 : Nat),
      findResyncGo l r li rj d0 steps = none ↔
        ∀ e, d0 ≤ e → e < d0 + steps → resyncAt l r li rj e = none := by
  intro steps
  induction steps with
  | zero =>
    intro d0
    constructor
    · intro h e he1 he2; omega
    · intro h; rfl
  | succ n ih =>
    intro d0
    unfold findResyncGo
    cases hres : resyncAt l r li rj d0 with
    | some b =>
      constructor
      · intro h; cases h
      · intro h
        have := h d0 (le_refl _) (by omega)
        rw [this] at hres; cases hres
    | none =>
      rw [ih (d0 + 1)]
      constructor
      · intro h e he1 he2
        rcases Nat.eq_or_lt_of_le he1 with rfl | hgt
        · exact hres
        · exact h e (by omega) (by omega)
      · intro h e he1 he2
        exact h e (by omega) (by omega)

theorem findResync_removed (l r : List String) (li rj d : Nat)
    (h : findResync l r li rj = some (d, true)) :
    1 ≤ d ∧ removedResync l r li rj d := by
  obtain ⟨h1, -, h3, -⟩ := (findResyncGo_some_iff l r li rj 5 1 d true).mp h
  exact ⟨h1, (resyncAt_some_true_iff l r li rj d).mp h3⟩

theorem findResync_added (l r : List String) (li rj d : Nat)
    (h : findResync l r li rj = some (d, false)) :
    1 ≤ d ∧ addedResync l r li rj d := by
  obtain ⟨h1, -, h3, -⟩ := (findResyncGo_some_iff l r li rj 5 1 d false).mp h
  exact ⟨h1, ((resyncAt_some_false_iff l r li rj d).mp h3).2⟩

/-- C7: the lookahead of `compute_diff` tries distances 1 to 5 in
increasing order; at every distance the removed-side resync is checked
before the added-side one, and the smallest distance wins (a hit at
distance `d` implies no resync of either kind exists at any smaller
distance, and a removed-side hit at `d` rules the added-side check at
`d` out only when the removed-side one failed). Consequently, diffing
`["a","b","c"]` against `["a","c"]` gives the kinds
`Equal, Removed, Equal` (not `Modified, Modified`), and diffing
`["a","b","c"]` against `["a","x","c"]` gives `Equal, Modified, Equal`
with counts `{equal := 2, modified := 1, added := 0, removed := 0}`. -/
theorem computeDiff_lookahead_order :
    (∀ (l r : List String) (li rj d : Nat) (side : Bool),
      findResync l r li rj = some (d, side) ↔
        (1 ≤ d ∧ d ≤ 5 ∧
          (∀ e, 1 ≤ e → e < d →
            ¬ removedResync l r li rj e ∧ ¬ addedResync l r li rj e) ∧
          ((side = true ∧ removedResync l r li rj d) ∨
            (side = false ∧ ¬ removedResync l r li rj d ∧
              addedResync l r li rj d)))) ∧
    (∀ (l r : List String) (li rj : Nat),
      findResync l r li rj = none ↔
        ∀ e, 1 ≤ e → e ≤ 5 →
          ¬ removedResync l r li rj e ∧ ¬ addedResync l r li rj e) ∧
    (computeDiff ["a", "b", "c"] ["a", "c"]).map (fun dl => dl.lineType) =
      [.equal, .removed, .equal] ∧
    (computeDiff ["a", "b", "c"] ["a", "x", "c"]).map (fun dl => dl.lineType) =
      [.equal, .modified, .equal] ∧
    diffCounts (computeDiff ["a", "b", "c"] ["a", "x", "c"]) =
      { equal := 2, added := 0, removed := 0, modified := 1 } := by
  refine ⟨?_, ?_, by decide, by decide, by decide⟩
  · intro l r li rj d side
    rw [show findResync l r li rj = findResyncGo l r li rj 1 5 from rfl,
      findResyncGo_some_iff l r li rj 5 1 d side]
    constructor
    · rintro ⟨h1, h2, h3, h4⟩
      refine ⟨h1, by omega, ?_, ?_⟩
      · intro e he1 he2
        exact (resyncAt_none_iff l r li rj e).mp (h4 e he1 he2)
      · cases side
        · exact Or.inr ⟨rfl, (resyncAt_some_false_iff l r li rj d).mp h3⟩
        · exact Or.inl ⟨rfl, (resyncAt_some_true_iff l r li rj d).mp h3⟩
    · rintro ⟨h1, h2, h3, h4⟩
      refine ⟨h1, by omega, ?_, ?_⟩
      · rcases h4 with ⟨rfl, hrem⟩ | ⟨rfl, hnrem, hadd⟩
        · exact (resyncAt_some_true_iff l r li rj d).mpr hrem
        · exact (resyncAt_some_false_iff l r li rj d).mpr ⟨hnrem, hadd⟩
      · intro e he1 he2
        exact (resyncAt_none_iff l r li rj e).mpr (h3 e he1 he2)
  · intro l r li rj
    rw [show findResync l r li rj = findResyncGo l r li rj 1 5 from rfl,
      findResyncGo_none_iff l r li rj 5 1]
    constructor
    · intro h e he1 he2
      exact (resyncAt_none_iff l r li rj e).mp (h e he1 (by omega))
    · intro h e he1 he2
      exact (resyncAt_none_iff l r li rj e).mpr (h e he1 (by omega))

theorem isSome_map_opt {α β : Type} (f : α → β) (o : Option α) :
    (Option.map f o).isSome = o.isSome := by cases o <;> rfl

theorem removedResync_bound (l r : List String) (li rj d : Nat)
    (h : removedResync l r li rj d) : li + d < l.length := by
  unfold removedResync at h; exact h.1

theorem addedResync_bound (l r : List String) (li rj d : Nat)
    (h : addedResync l r li rj d) : rj + d < r.length := by
  unfold addedResync at h; exact h.1

theorem diffAux_isSome (l r : List String) :
    ∀ (fuel li rj : Nat), (l.length - li) + (r.length - rj) ≤ fuel →
      (diffAux l r fuel li rj).isSome = true := by
  intro fuel
  induction fuel with
  | zero =>
    intro li rj hle
    have hcond : ¬ (li < l.length ∨ rj < r.length) := by omega
    unfold diffAux
    rw [if_neg hcond]
    rfl
  | succ n ih =>
    intro li rj hle
    unfold diffAux
    by_cases hcond : li < l.length ∨ rj < r.length
    · rw [if_pos hcond]
      by_cases h1 : l.length ≤ li
      · rw [if_pos h1, isSome_map_opt]
        exact ih li (rj + 1) (by omega)
      · rw [if_neg h1]
        by_cases h2 : r.length ≤ rj
        · rw [if_pos h2, isSome_map_opt]
          exact ih (li + 1) rj (by omega)
        · rw [if_neg h2]
          by_cases h3 : l.getD li "" = r.getD rj ""
          · rw [if_pos h3, isSome_map_opt]
            exact ih (li + 1) (rj + 1) (by omega)
          · rw [if_neg h3]
            rcases hfr : findResync l r li rj with _ | ⟨d, side⟩
            · show (Option.map (fun rest => modifiedLine l r li rj :: rest)
                  (diffAux l r n (li + 1) (rj + 1))).isSome = true
              rw [isSome_map_opt]
              exact ih (li + 1) (rj + 1) (by omega)
            · cases side
              · obtain ⟨hd1, hadd⟩ := findResync_added l r li rj d hfr
                have hb := addedResync_bound l r li rj d hadd
                show (Option.map
                    (fun rest => ((List.range d).map fun k => addedLine r (rj + k)) ++ rest)
                    (diffAux l r n li (rj + d))).isSome = true
                rw [isSome_map_opt]
                exact ih li (rj + d) (by omega)
              · obtain ⟨hd1, hrem⟩ := findResync_removed l r li rj d hfr
                have hb := removedResync_bound l r li rj d hrem
                show (Option.map
                    (fun rest => ((List.range d).map fun k => removedLine l (li + k)) ++ rest)
                    (diffAux l r n (li + d) rj)).isSome = true
                rw [isSome_map_opt]
                exact ih (li + d) rj (by omega)
    · rw [if_neg hcond]
      rfl

theorem diffAux_fuel_agree (l r : List String) :
    ∀ (fuel1 fuel2 li rj : Nat),
      (l.length - li) + (r.length - rj) ≤ fuel1 →
      (l.length - li) + (r.length - rj) ≤ fuel2 →
      diffAux l r fuel1 li rj = diffAux l r fuel2 li rj := by
  intro fuel1
  induction fuel1 with
  | zero =>
    intro fuel2 li rj hle1 hle2
    have hcond : ¬ (li < l.length ∨ rj < r.length) := by omega
    cases fuel2 with
    | zero => rfl
    | succ m =>
      unfold diffAux
      rw [if_neg hcond, if_neg hcond]
  | succ n ih =>
    intro fuel2 li rj hle1 hle2
    by_cases hcond : li < l.length ∨ rj < r.length
    · cases fuel2 with
      | zero => omega
      | succ m =>
        unfold diffAux
        rw [if_pos hcond, if_pos hcond]
        by_cases h1 : l.length ≤ li
        · rw [if_pos h1, if_pos h1, ih m li (rj + 1) (by omega) (by omega)]
        · rw [if_neg h1, if_neg h1]
          by_cases h2 : r.length ≤ rj
          · rw [if_pos h2, if_pos h2, ih m (li + 1) rj (by omega) (by omega)]
          · rw [if_neg h2, if_neg h2]
            by_cases h3 : l.getD li "" = r.getD rj ""
            · rw [if_pos h3, if_pos h3, ih m (li + 1) (rj + 1) (by omega) (by omega)]
            · rw [if_neg h3, if_neg h3]
              rcases hfr : findResync l r li rj with _ | ⟨d, side⟩
              · show Option.map (fun rest => modifiedLine l r li rj :: rest)
                    (diffAux l r n (li + 1) (rj + 1)) =
                  Option.map (fun rest => modifiedLine l r li rj :: rest)
                    (diffAux l r m (li + 1) (rj + 1))
                rw [ih m (li + 1) (rj + 1) (by omega) (by omega)]
              · cases side
                · obtain ⟨hd1, hadd⟩ := findResync_added l r li rj d hfr
                  have hb := addedResync_bound l r li rj d hadd
                  show Option.map
                      (fun rest => ((List.range d).map fun k => addedLine r (rj + k)) ++ rest)
                      (diffAux l r n li (rj + d)) =
                    Option.map
                      (fun rest => ((List.range d).map fun k => addedLine r (rj + k)) ++ rest)
                      (diffAux l r m li (rj + d))
                  rw [ih m li (rj + d) (by omega) (by omega)]
                · obtain ⟨hd1, hrem⟩ := findResync_removed l r li rj d hfr
                  have hb := removedResync_bound l r li rj d hrem
                  show Option.map
                      (fun rest => ((List.range d).map fun k => removedLine l (li + k)) ++ rest)
                      (diffAux l r n (li + d) rj) =
                    Option.map
                      (fun rest => ((List.range d).map fun k => removedLine l (li + k)) ++ rest)
                      (diffAux l r m (li + d) rj)
                  rw [ih m (li + d) rj (by omega) (by omega)]
    · cases fuel2 with
      | zero =>
        unfold diffAux
        rw [if_neg hcond, if_neg hcond]
      | succ m =>
        unfold diffAux
        rw [if_neg hcond, if_neg hcond]

/-- C9: the line-alignment loop of `compute_diff` terminates on every
pair of finite line lists. Each iteration moves `left_idx + right_idx`
forward by at least 1 (and by the distance `d` of a lookahead resync),
so `l.length + r.length` units of fuel always suffice: with that much
fuel `diffAux` always yields a result, and any larger fuel yields the
same result — the embedding `computeDiff` is a total function of the
two input line lists. -/
theorem computeDiff_total :
    (∀ (l r : List String) (fuel li rj : Nat),
      (l.length - li) + (r.length - rj) ≤ fuel →
      (diffAux l r fuel li rj).isSome = true) ∧
    (∀ (l r : List String) (fuel : Nat), l.length + r.length ≤ fuel →
      diffAux l r fuel 0 0 = some (computeDiff l r)) := by
  constructor
  · exact fun l r => diffAux_isSome l r
  · intro l r fuel hf
    rw [diffAux_fuel_agree l r fuel (l.length + r.length) 0 0 (by omega) (by omega)]
    unfold computeDiff
    obtain ⟨v, hv⟩ := Option.isSome_iff_exists.mp
      (diffAux_isSome l r (l.length + r.length) 0 0 (by omega))
    rw [hv, Option.getD_some]

/-! ### C10: get_selected_items is total and in-bounds -/

/-- C10: `get_selected_items` never indexes out of bounds: every entry
it returns is `items[k]` for some valid index `k` — stale selection
indices beyond the current entry list are silently dropped by the
`filter_map` over `items.get` — and the result is empty when the entry
list is empty (whatever stale indices the selection holds). -/
theorem getSelectedItems_in_bounds :
    (∀ (p : Pane) (x : FileItem), x ∈ getSelectedItems p →
      ∃ k, k < p.items.length ∧ p.items[k]? = some x) ∧
    (∀ p : Pane, p.items = [] → getSelectedItems p = []) := by
  constructor
  · intro p x hx
    unfold getSelectedItems at hx
    by_cases hsel : p.selectedItems = []
    · rw [if_pos hsel] at hx
      cases hg : p.items[p.selectedIndex]? with
      | none => rw [hg] at hx; cases hx
      | some it =>
        rw [hg] at hx
        have hxit : x = it := by simpa using hx
        have hk : p.selectedIndex < p.items.length := by
          by_contra hge
          rw [List.getElem?_eq_none (by omega)] at hg
          cases hg
        exact ⟨p.selectedIndex, hk, by rw [hg, hxit]⟩
    · rw [if_neg hsel] at hx
      rw [List.mem_filterMap] at hx
      obtain ⟨idx, -, hidx⟩ := hx
      have hk : idx < p.items.length := by
        by_contra hge
        rw [List.getElem?_eq_none (by omega)] at hidx
        cases hidx
      exact ⟨idx, hk, hidx⟩
  · intro p hempty
    unfold getSelectedItems
    by_cases hsel : p.selectedItems = []
    · rw [if_pos hsel, hempty]
      rfl
    · rw [if_neg hsel]
      rw [hempty]
      simp

/-! ### C8: the search walker -/

set_option maxHeartbeats 1000000 in
theorem searchEntry_eq_cases_file (c : SearchCriteria) (pre : FsPath) (n : String)
    (s m : Nat) (mo : Bool) (co : Option String) :
    searchEntry c pre (.file n s m mo co) =
      if (!c.includeHidden && startsWithDot n) || !mo then []
      else
        (if matchesCriteria c (.file n s m mo co) then
          [toItemAt (pre ++ [n], .file n s m mo co)] else []) ++
          searchChildren c pre (.file n s m mo co) := by
  rw [searchEntry]
  simp only [FsEntry.name, FsEntry.metaOk, FsEntry.isDir, FsEntry.content,
    FsEntry.size, FsEntry.modifiedAt]
  split_ifs with h0 h1 h2 h3 h4 h5 h6 h7 h8 h9 h10 <;>
    try simp_all [matchesCriteria, searchChildren, toItemAt, FsEntry.name,
      FsEntry.metaOk, FsEntry.isDir, FsEntry.content, FsEntry.size,
      FsEntry.modifiedAt]
  all_goals cases hfp : c.filenamePattern.isEmpty <;> simp_all

set_option maxHeartbeats 1000000 in
theorem searchEntry_eq_cases_dir (c : SearchCriteria) (pre : FsPath) (n : String)
    (s m : Nat) (mo rd : Bool) (children : FsForest) :
    searchEntry c pre (.dir n s m mo rd children) =
      if (!c.includeHidden && startsWithDot n) || !mo then []
      else
        (if matchesCriteria c (.dir n s m mo rd children) then
          [toItemAt (pre ++ [n], .dir n s m mo rd children)] else []) ++
          searchChildren c pre (.dir n s m mo rd children) := by
  rw [searchEntry]
  simp only [FsEntry.name, FsEntry.metaOk, FsEntry.isDir, FsEntry.content,
    FsEntry.size, FsEntry.modifiedAt]
  have hkids : (if rd then searchForest c (pre ++ [n]) children else []) =
      searchChildren c pre (.dir n s m mo rd children) := rfl
  simp only [hkids]
  split_ifs with h0 h1 h2 h3 h4 h5 h6 h7 h8 h9 h10 <;>
    try simp_all [matchesCriteria, searchChildren, toItemAt, FsEntry.name,
      FsEntry.metaOk, FsEntry.isDir, FsEntry.content, FsEntry.size,
      FsEntry.modifiedAt]

theorem searchEntry_eq_cases (c : SearchCriteria) (pre : FsPath) (e : FsEntry) :
    searchEntry c pre e =
      if (!c.includeHidden && startsWithDot e.name) || !e.metaOk then []
      else
        (if matchesCriteria c e then [toItemAt (pre ++ [e.name], e)] else []) ++
          searchChildren c pre e := by
  cases e with
  | file n s m mo co => exact searchEntry_eq_cases_file c pre n s m mo co
  | dir n s m mo rd children => exact searchEntry_eq_cases_dir c pre n s m mo rd children

theorem visibleEntry_eq (c : SearchCriteria) (pre : FsPath) (e : FsEntry) :
    visibleEntry c pre e =
      if (!c.includeHidden && startsWithDot e.name) || !e.metaOk then []
      else (pre ++ [e.name], e) :: visibleChildren c pre e := by
  cases e with
  | file n s m mo co => simp only [visibleEntry, visibleChildren]
  | dir n s m mo rd children => simp only [visibleEntry, visibleChildren]

mutual
theorem searchEntry_characterized (c : SearchCriteria) (pre : FsPath) (e : FsEntry) :
    searchEntry c pre e =
      ((visibleEntry c pre e).filter fun pe => matchesCriteria c pe.2).map toItemAt := by
  rw [searchEntry_eq_cases, visibleEntry_eq]
  by_cases hv : ((!c.includeHidden && startsWithDot e.name) || !e.metaOk) = true
  · rw [if_pos hv, if_pos hv]; rfl
  · rw [if_neg hv, if_neg hv]
    have hch : searchChildren c pre e =
        ((visibleChildren c pre e).filter fun pe => matchesCriteria c pe.2).map
          toItemAt := by
      cases e with
      | file n s m mo co =>
        simp only [searchChildren, visibleChildren, List.filter_nil, List.map_nil]
      | dir n s m mo rd children =>
        simp only [searchChildren, visibleChildren]
        by_cases hrd : rd = true
        · rw [if_pos hrd, if_pos hrd]
          exact searchForest_characterized c (pre ++ [n]) children
        · rw [if_neg hrd, if_neg hrd]; rfl
    by_cases hm : matchesCriteria c e = true
    · rw [if_pos hm]
      have hfil : List.filter (fun pe => matchesCriteria c pe.2)
            ((pre ++ [e.name], e) :: visibleChildren c pre e) =
          (pre ++ [e.name], e) ::
            List.filter (fun pe => matchesCriteria c pe.2) (visibleChildren c pre e) := by
        rw [List.filter_cons]; simp [hm]
      rw [hfil, List.map_cons, hch]
      rfl
    · rw [if_neg hm]
      have hfil : List.filter (fun pe => matchesCriteria c pe.2)
            ((pre ++ [e.name], e) :: visibleChildren c pre e) =
          List.filter (fun pe => matchesCriteria c pe.2) (visibleChildren c pre e) := by
        rw [List.filter_cons]; simp [hm]
      rw [hfil, hch]
      rfl

theorem searchForest_characterized (c : SearchCriteria) (pre : FsPath) (f : FsForest) :
    searchForest c pre f =
      ((visibleForest c pre f).filter fun pe => matchesCriteria c pe.2).map toItemAt := by
  cases f with
  | nil => simp only [searchForest, visibleForest, List.filter_nil, List.map_nil]
  | cons e rest =>
    simp only [searchForest, visibleForest]
    rw [List.filter_append, List.map_append, searchEntry_characterized c pre e,
      searchForest_characterized c pre rest]
end

/-- C8: membership in the search results is exactly "visited and
matching". `searchForest` returns, in visitation order, the `FileItem`
of every visited node (non-hidden unless `include_hidden`, metadata
readable, all ancestors visited and readable) that passes all of the
type-filter, filename-substring, size-bound, modified-time-bound and
content checks; an entry failing a check is excluded from the results
but its subtree is still visited, so every visible matching node at
every depth — also below non-matching directories — is returned. With
`type_filter = DirectoriesOnly` this yields every matching directory
at every depth, and with `FilesOnly` every matching file at every
depth (the walker still descends into all visible subdirectories). -/
theorem search_recursion_characterization :
    (∀ (c : SearchCriteria) (pre : FsPath) (f : FsForest),
      searchForest c pre f =
        ((visibleForest c pre f).filter fun pe => matchesCriteria c pe.2).map
          toItemAt) ∧
    (∀ (c : SearchCriteria) (pre : FsPath) (f : FsForest) (pe : FsPath × FsEntry),
      pe ∈ visibleForest c pre f → matchesCriteria c pe.2 = true →
      toItemAt pe ∈ searchForest c pre f) := by
  refine ⟨searchForest_characterized, ?_⟩
  intro c pre f pe hmem hmatch
  rw [searchForest_characterized c pre f]
  exact List.mem_map_of_mem toItemAt (List.mem_filter.mpr ⟨hmem, hmatch⟩)

end Filane
